import Mathlib

/-!
Verification of the committee-core proof-checking code (PAV core, few
candidates).

The development shallowly embeds the repository's Python code:

* `harmonic_number`, `swapped`, `verify_dual_solution` from the notebook
  `B_committee_size_8/duals-counterexample-k8-structure.ipynb`;
* `make_model` (the Gurobi LP instance builder) from the primal notebook,
  embedded as a symbolic coefficient structure `LinearProgram`;
* `LHS` (the `delta_A` quantity of the k <= 7 inequality check) from the
  notebook `check-inequality.ipynb`, with Python's `Fraction(num, den)`
  embedded as an `Option ℚ` that is `none` exactly on a zero denominator
  (Python raises `ZeroDivisionError` there);
* the canonicalization helpers `generate_wlog_partition` / `is_wlog` and the
  primitives `utility` / the builder's `harmonic_number`, which live in the
  repository file `utility_functions.py` that is not part of the staged
  sources; those are modelled from the design spec and marked as such.

Python sets/tuples of candidates are embedded as `Finset ℕ`; exact
`fractions.Fraction` arithmetic is embedded as `ℚ`.  The verifier's
AssertionError exits (and the diagnostic `print` preceding the per-ballot
assertion) are embedded as an `Except VerifyFailure` result whose error value
carries exactly the data the Python code reports.
-/

namespace PAVCore

/-- From `duals-counterexample-k8-structure.ipynb`:
`harmonic_number(r) = sum(Fraction(1,i) for i in range(1,r+1))`.
`range(1, r+1)` is the integer interval `[1, r]`. -/
def harmonic_number (r : ℕ) : ℚ :=
  ∑ i ∈ Finset.Icc 1 r, (1 : ℚ) / (i : ℚ)

/-- Modelled from the spec: the repository file `utility_functions.py` (which
`make_model`'s notebook imports `harmonic_number` from) is not among the staged
sources.  The spec defines it as "`H(r) = Σ_{i=1}^{r} 1/i` as an exact
rational; `H(0) = 0`". -/
def harmonic_number_uf (r : ℕ) : ℚ :=
  ∑ i ∈ Finset.range r, (1 : ℚ) / ((i : ℚ) + 1)

/-- Modelled from the spec: `utility` lives in `utility_functions.py`, not
among the staged sources.  The spec: "`utility(ballot, committee) -> int`:
cardinality of intersection. Pure, no side effects, total for all inputs." -/
def utility (ballot committee : Finset ℕ) : ℕ :=
  (ballot ∩ committee).card

/-- From `duals-counterexample-k8-structure.ipynb`:
`swapped(committee, x, y) = tuple(set(committee) - {x} | {y})`
(`-` binds tighter than `|` in Python). -/
def swapped (committee : Finset ℕ) (x y : ℕ) : Finset ℕ :=
  insert y (committee.erase x)

/-- From the primal notebook's `make_model`:
`W_xy[(x,y)] = tuple((set(pav_committee) - {x}) | {y})`. -/
def W_xy (committee : Finset ℕ) (x y : ℕ) : Finset ℕ :=
  (committee \ {x}) ∪ {y}

lemma W_xy_eq_swapped (committee : Finset ℕ) (x y : ℕ) :
    W_xy committee x y = swapped committee x y := by
  rw [W_xy, swapped, Finset.sdiff_singleton_eq_erase, Finset.union_comm,
    ← Finset.insert_eq]

lemma harmonic_number_uf_eq (r : ℕ) : harmonic_number_uf r = harmonic_number r := by
  induction r with
  | zero => simp [harmonic_number, harmonic_number_uf]
  | succ n ih =>
      rw [harmonic_number, Finset.sum_Icc_succ_top (Nat.one_le_iff_ne_zero.mpr n.succ_ne_zero),
        ← harmonic_number, ← ih, harmonic_number_uf, Finset.sum_range_succ,
        harmonic_number_uf]
      push_cast
      ring

lemma harmonic_number_succ (n : ℕ) :
    harmonic_number (n + 1) = harmonic_number n + 1 / ((n : ℚ) + 1) := by
  rw [harmonic_number, Finset.sum_Icc_succ_top (Nat.one_le_iff_ne_zero.mpr n.succ_ne_zero),
    ← harmonic_number]
  push_cast
  ring

/-- From `check-inequality.ipynb`: Python's `Fraction(num, den)` constructor,
which raises `ZeroDivisionError` when `den = 0` and otherwise builds the exact
rational `num / den`. -/
def pyFraction (num den : ℤ) : Option ℚ :=
  if den = 0 then none else some ((num : ℚ) / (den : ℚ))

/-- From `check-inequality.ipynb` (`delta_A` in the paper):
```
def LHS(a, b, c, W_minus_T, T_minus_W):
    if a + b:
        return Fraction((W_minus_T - a) * c, a + b + 1) - Fraction(a * (T_minus_W - c), a + b)
    else:
        # a + b = 0, so a = 0, so second term is 0 / 0 = 0
        return Fraction((W_minus_T - a) * c, a + b + 1)
```
The counters `a`, `b`, `c` and the two cardinalities are nonnegative
integers; the subtractions are Python integer subtractions, hence `ℤ`. -/
def LHS (a b c W_minus_T T_minus_W : ℕ) : Option ℚ :=
  if a + b ≠ 0 then
    match pyFraction (((W_minus_T : ℤ) - (a : ℤ)) * (c : ℤ)) ((a : ℤ) + (b : ℤ) + 1),
        pyFraction ((a : ℤ) * ((T_minus_W : ℤ) - (c : ℤ))) ((a : ℤ) + (b : ℤ)) with
    | some t1, some t2 => some (t1 - t2)
    | _, _ => none
  else
    pyFraction (((W_minus_T : ℤ) - (a : ℤ)) * (c : ℤ)) ((a : ℤ) + (b : ℤ) + 1)

/-- C7: `harmonic_number(0) = 0`; for every `r ≥ 1`,
`harmonic_number(r) = harmonic_number(r-1) + 1/r` as an exact rational; and
`harmonic_number` is strictly increasing. -/
theorem claim_C7_harmonic_number :
    harmonic_number 0 = 0
    ∧ (∀ r : ℕ, 1 ≤ r → harmonic_number r = harmonic_number (r - 1) + 1 / (r : ℚ))
    ∧ StrictMono harmonic_number := by
  refine ⟨by simp [harmonic_number], ?_, ?_⟩
  · intro r hr
    obtain ⟨n, rfl⟩ := Nat.exists_eq_add_of_le hr
    rw [Nat.add_comm 1 n, harmonic_number_succ]
    push_cast
    norm_num
  · apply strictMono_nat_of_lt_succ
    intro n
    rw [harmonic_number_succ]
    have hpos : (0 : ℚ) < 1 / ((n : ℚ) + 1) := by positivity
    linarith

/-- C8: `utility(A, W)` is the cardinality of the intersection `A ∩ W`, a
total pure function with values in `[0, min(|A|, |W|)]` (the lower bound `0`
is automatic for `ℕ`). -/
theorem claim_C8_utility (A W : Finset ℕ) :
    utility A W = (A ∩ W).card ∧ utility A W ≤ min A.card W.card := by
  refine ⟨rfl, le_min ?_ ?_⟩
  · exact Finset.card_le_card Finset.inter_subset_left
  · exact Finset.card_le_card Finset.inter_subset_right

/-- C10: `LHS` is total on nonnegative integer inputs — no `Fraction` is ever
built with denominator zero — its value equals the two-term expression with
the `0/0` second term read as `0` (which is the value `ℚ`'s total division
assigns it), and when `a + b = 0` the guarded branch returns only the first
term. -/
theorem claim_C10_LHS_total (a b c W_minus_T T_minus_W : ℕ) :
    LHS a b c W_minus_T T_minus_W
      = some (((W_minus_T : ℚ) - (a : ℚ)) * (c : ℚ) / ((a : ℚ) + (b : ℚ) + 1)
          - (a : ℚ) * ((T_minus_W : ℚ) - (c : ℚ)) / ((a : ℚ) + (b : ℚ)))
    ∧ (a + b = 0 →
        LHS a b c W_minus_T T_minus_W
          = some (((W_minus_T : ℚ) - (a : ℚ)) * (c : ℚ) / ((a : ℚ) + (b : ℚ) + 1))) := by
  have hden1 : ((a : ℤ) + (b : ℤ) + 1) ≠ 0 := by positivity
  by_cases h : a + b = 0
  · obtain ⟨ha, hb⟩ := Nat.add_eq_zero.mp h
    subst ha; subst hb
    refine ⟨?_, fun _ => ?_⟩ <;>
      simp [LHS, pyFraction]
  · have hz : ((a : ℤ) + (b : ℤ)) ≠ 0 := by
      exact_mod_cast fun hc => h (by exact_mod_cast hc)
    refine ⟨?_, fun hc => absurd hc h⟩
    rw [LHS, if_pos h, pyFraction, if_neg hden1, pyFraction, if_neg hz]
    push_cast
    ring_nf

/-!
## The LP context

Both notebooks fix the same globals:
`num_alts = 10`, `k = 8`, `A = list(range(num_alts))`,
`ballots = sorted(powerset(A))`, `pav_committee = tuple(A[:k])`,
`T = (0, 1, 8, 9)`, and
`swaps = [(x, y) for x in pav_committee for y in A if y not in pav_committee]`.
We abstract them into a context record, with the notebook's concrete values as
`k8ctx`, so that the statements quantify over every input `(A, k, W, T)`;
no code below depends on the specific values.
-/

structure LPContext where
  num_alts : ℕ
  k : ℕ
  W : Finset ℕ
  T : Finset ℕ

/-- `A = list(range(num_alts))` as a set of candidates. -/
def groundSet (ctx : LPContext) : Finset ℕ :=
  Finset.range ctx.num_alts

/-- `ballots = sorted(powerset(A))` as a set: the full power set of `A`. -/
def ballots (ctx : LPContext) : Finset (Finset ℕ) :=
  (groundSet ctx).powerset

/-- The ballot universe as a list, for the verifier's `for ballot in ballots`
loop: every subset of `A`, enumerated from the sublists of the ordered list
`range(num_alts)`.  (The claims proved below do not depend on the enumeration
order.) -/
def ballotsList (ctx : LPContext) : List (Finset ℕ) :=
  ((List.range ctx.num_alts).sublists).map List.toFinset

/-- `swaps = [(x, y) for x in pav_committee for y in A if y not in
pav_committee]`, as the set of ordered pairs. -/
def swaps (ctx : LPContext) : Finset (ℕ × ℕ) :=
  ctx.W ×ˢ (groundSet ctx \ ctx.W)

/-- A stored dual solution: the verifier reads `alpha`, one `beta_{x}_{y}` per
swap, and `gamma` out of the loaded dictionary. -/
structure DualSolution where
  alpha : ℚ
  beta : ℕ × ℕ → ℚ
  gamma : ℚ

/-- The ways `verify_dual_solution` aborts, with exactly the data the Python
code emits before each abort: the two sign `assert`s carry nothing, and the
per-ballot bound `assert` is preceded by
`print(f"lhs = {lhs}, rhs = {objective[ballot]}")`, i.e. the two rationals
(the offending ballot itself is not part of the output). -/
inductive VerifyFailure where
  | betaSignAssert : VerifyFailure
  | gammaSignAssert : VerifyFailure
  | boundAssert (lhs rhs : ℚ) : VerifyFailure
deriving DecidableEq

/-- The verifier's swap term for one ballot and one swap `(x, y)` (the body of
its inner `for x, y in swaps` loop):
`harmonic_number(utility(ballot, swapped(pav_committee, x, y))) -
harmonic_number(utility(ballot, pav_committee))`. -/
def verifier_swap_coeff (ctx : LPContext) (ballot : Finset ℕ) (x y : ℕ) : ℚ :=
  harmonic_number (utility ballot (swapped ctx.W x y))
    - harmonic_number (utility ballot ctx.W)

/-- The indicator deciding whether the verifier subtracts `gamma` for a
ballot: `if utility(ballot, T) > utility(ballot, pav_committee)`. -/
def verifier_dev_indicator (ctx : LPContext) (ballot : Finset ℕ) : ℚ :=
  if utility ballot ctx.T > utility ballot ctx.W then 1 else 0

/-- The per-ballot left-hand side the verifier accumulates:
`lhs = alpha`; `lhs += beta[x, y] * (...)` over all swaps; then
`lhs -= gamma` when the ballot strictly prefers `T`. -/
def constraint_lhs (ctx : LPContext) (ds : DualSolution) (ballot : Finset ℕ) : ℚ :=
  ds.alpha + (∑ s ∈ swaps ctx, ds.beta s * verifier_swap_coeff ctx ballot s.1 s.2)
    - (if utility ballot ctx.T > utility ballot ctx.W then ds.gamma else 0)

/-- The verifier's `for ballot in ballots` loop: on the first ballot whose
accumulated `lhs` fails `lhs >= objective[ballot]`, the code prints both sides
and the `assert` aborts. -/
def check_ballots (ctx : LPContext) (ds : DualSolution) (obj : Finset ℕ → ℚ) :
    List (Finset ℕ) → Except VerifyFailure Unit
  | [] => Except.ok ()
  | ballot :: rest =>
      if ¬ (obj ballot ≤ constraint_lhs ctx ds ballot) then
        Except.error (VerifyFailure.boundAssert (constraint_lhs ctx ds ballot) (obj ballot))
      else
        check_ballots ctx ds obj rest

/-- From `duals-counterexample-k8-structure.ipynb`:
```
def verify_dual_solution(dual_solution, objective):
    alpha = dual_solution["alpha"]
    beta = {(x, y) : dual_solution[f"beta_{x}_{y}"] for x, y in swaps}
    gamma = dual_solution["gamma"]
    assert all(beta[x, y] >= 0 for x in pav_committee for y in A if y not in pav_committee)
    assert gamma >= 0
    for ballot in ballots:
        ... per-ballot check (see check_ballots) ...
    return alpha - Fraction(len(T), k) * gamma
```
-/
def verify_dual_solution (ctx : LPContext) (ds : DualSolution) (obj : Finset ℕ → ℚ) :
    Except VerifyFailure ℚ :=
  if ¬ (∀ s ∈ swaps ctx, 0 ≤ ds.beta s) then
    Except.error VerifyFailure.betaSignAssert
  else if ¬ (0 ≤ ds.gamma) then
    Except.error VerifyFailure.gammaSignAssert
  else
    (check_ballots ctx ds obj (ballotsList ctx)).map
      (fun _ => ds.alpha - (ctx.T.card : ℚ) / (ctx.k : ℚ) * ds.gamma)

/-- The notebooks' concrete instantiation: `num_alts = 10`, `k = 8`,
`pav_committee = tuple(A[:k])`, `T = (0, 1, 8, 9)`. -/
def k8ctx : LPContext :=
  { num_alts := 10
    k := 8
    W := ((List.range 10).take 8).toFinset
    T := ({0, 1, 8, 9} : Finset ℕ) }

/-- The all-zero dual solution, used as a concrete satisfiable input. -/
def ds0 : DualSolution :=
  { alpha := 0, beta := fun _ => 0, gamma := 0 }

/-- A dual solution with a negative swap dual, used to exercise the sign
check. -/
def dsNeg : DualSolution :=
  { alpha := 0, beta := fun _ => -1, gamma := 0 }

/-- The identically-zero objective vector. -/
def zeroObj : Finset ℕ → ℚ := fun _ => 0

/-- The notebooks' indicator objective:
`objective = {ballot: int(ballot == special_ballot) for ballot in ballots}`. -/
def indicatorObj (special_ballot : Finset ℕ) : Finset ℕ → ℚ :=
  fun ballot => if ballot = special_ballot then 1 else 0

/-- The ballots whose dual constraint a given certificate violates. -/
def violating_ballots (ctx : LPContext) (ds : DualSolution) (obj : Finset ℕ → ℚ) :
    Finset (Finset ℕ) :=
  (ballots ctx).filter (fun b => constraint_lhs ctx ds b < obj b)

lemma check_ballots_ok_iff (ctx : LPContext) (ds : DualSolution) (obj : Finset ℕ → ℚ)
    (l : List (Finset ℕ)) :
    check_ballots ctx ds obj l = Except.ok () ↔
      ∀ b ∈ l, obj b ≤ constraint_lhs ctx ds b := by
  induction l with
  | nil => simp [check_ballots]
  | cons hd tl ih =>
      by_cases h : obj hd ≤ constraint_lhs ctx ds hd
      · rw [check_ballots, if_neg (not_not_intro h)]
        simp [ih, h]
      · rw [check_ballots, if_pos h]
        simp [h]

lemma check_ballots_error_of_exists (ctx : LPContext) (ds : DualSolution)
    (obj : Finset ℕ → ℚ) (l : List (Finset ℕ))
    (hex : ∃ b ∈ l, constraint_lhs ctx ds b < obj b) :
    ∃ b ∈ l, constraint_lhs ctx ds b < obj b ∧
      check_ballots ctx ds obj l
        = Except.error (VerifyFailure.boundAssert (constraint_lhs ctx ds b) (obj b)) := by
  induction l with
  | nil => simp at hex
  | cons hd tl ih =>
      by_cases h : constraint_lhs ctx ds hd < obj hd
      · exact ⟨hd, List.mem_cons_self hd tl, h, by
          rw [check_ballots, if_pos (not_le.mpr h)]⟩
      · have hex' : ∃ b ∈ tl, constraint_lhs ctx ds b < obj b := by
          obtain ⟨b, hb, hvb⟩ := hex
          rcases List.mem_cons.mp hb with rfl | hb'
          · exact absurd hvb h
          · exact ⟨b, hb', hvb⟩
        obtain ⟨b, hb, hvb, hres⟩ := ih hex'
        refine ⟨b, List.mem_cons_of_mem hd hb, hvb, ?_⟩
        rw [check_ballots, if_neg (not_not_intro (not_lt.mp h)), hres]

lemma constraint_lhs_ds0 (ctx : LPContext) (b : Finset ℕ) :
    constraint_lhs ctx ds0 b = 0 := by
  simp [constraint_lhs, ds0]

lemma mem_ballots_iff (ctx : LPContext) (b : Finset ℕ) :
    b ∈ ballots ctx ↔ b ⊆ groundSet ctx := Finset.mem_powerset

lemma mem_ballotsList_iff (ctx : LPContext) (b : Finset ℕ) :
    b ∈ ballotsList ctx ↔ b ∈ ballots ctx := by
  rw [mem_ballots_iff]
  constructor
  · rintro hb
    obtain ⟨l, hl, rfl⟩ := List.mem_map.mp hb
    intro x hx
    have hx' : x ∈ List.range ctx.num_alts :=
      (List.mem_sublists.mp hl).subset (List.mem_toFinset.mp hx)
    exact Finset.mem_range.mpr (List.mem_range.mp hx')
  · intro hb
    refine List.mem_map.mpr ⟨(List.range ctx.num_alts).filter (fun x => x ∈ b), ?_, ?_⟩
    · exact List.mem_sublists.mpr (List.filter_sublist _)
    · ext x
      simp only [List.mem_toFinset, List.mem_filter, List.mem_range, decide_eq_true_eq]
      exact ⟨fun h => h.2, fun h => ⟨Finset.mem_range.mp (hb h), h⟩⟩

lemma verify_ds0 (ctx : LPContext) :
    verify_dual_solution ctx ds0 zeroObj = Except.ok 0 := by
  rw [verify_dual_solution,
    if_neg (not_not_intro (fun s _ => show (0 : ℚ) ≤ ds0.beta s from le_refl 0)),
    if_neg (not_not_intro (show (0 : ℚ) ≤ ds0.gamma from le_refl 0))]
  have hok : check_ballots ctx ds0 zeroObj (ballotsList ctx) = Except.ok () :=
    (check_ballots_ok_iff _ _ _ _).mpr (fun b _ => by
      rw [constraint_lhs_ds0]; exact le_refl 0)
  rw [hok]
  simp [Except.map, ds0, zeroObj]

lemma violating_ballots_ds0_indicator (ctx : LPContext) (b0 : Finset ℕ)
    (hb0 : b0 ∈ ballots ctx) :
    violating_ballots ctx ds0 (indicatorObj b0) = {b0} := by
  ext b
  simp only [violating_ballots, Finset.mem_filter, constraint_lhs_ds0, indicatorObj,
    Finset.mem_singleton]
  constructor
  · rintro ⟨_, hlt⟩
    by_contra hne
    rw [if_neg hne] at hlt
    exact lt_irrefl 0 hlt
  · rintro rfl
    exact ⟨hb0, by rw [if_pos rfl]; norm_num⟩

lemma verify_ds0_indicator_error (ctx : LPContext) (b0 : Finset ℕ)
    (hb0 : b0 ∈ ballots ctx) :
    verify_dual_solution ctx ds0 (indicatorObj b0)
      = Except.error (VerifyFailure.boundAssert 0 1) := by
  rw [verify_dual_solution,
    if_neg (not_not_intro (fun s _ => show (0 : ℚ) ≤ ds0.beta s from le_refl 0)),
    if_neg (not_not_intro (show (0 : ℚ) ≤ ds0.gamma from le_refl 0))]
  obtain ⟨b, hbmem, hviol, hres⟩ := check_ballots_error_of_exists ctx ds0 (indicatorObj b0)
    (ballotsList ctx)
    ⟨b0, (mem_ballotsList_iff ctx b0).mpr hb0, by
      rw [constraint_lhs_ds0]; simp [indicatorObj]⟩
  have hb_eq : b = b0 := by
    by_contra hne
    rw [constraint_lhs_ds0] at hviol
    simp [indicatorObj, hne] at hviol
  subst hb_eq
  rw [hres, constraint_lhs_ds0]
  simp [indicatorObj, Except.map]

/-- C1: the dual verifier succeeds and returns `alpha - (|T|/k) * gamma` only
if every ballot of the full `2^|A|`-element power-set universe satisfies
`objective[ballot] ≤ lhs(ballot)` exactly; no ballot is pruned. -/
theorem claim_C1_verifier_soundness (ctx : LPContext) (ds : DualSolution)
    (obj : Finset ℕ → ℚ) (v : ℚ)
    (h : verify_dual_solution ctx ds obj = Except.ok v) :
    v = ds.alpha - (ctx.T.card : ℚ) / (ctx.k : ℚ) * ds.gamma
    ∧ (∀ ballot ∈ (groundSet ctx).powerset, obj ballot ≤ constraint_lhs ctx ds ballot)
    ∧ (groundSet ctx).powerset.card = 2 ^ (groundSet ctx).card := by
  rw [verify_dual_solution] at h
  split_ifs at h
  cases hc : check_ballots ctx ds obj (ballotsList ctx) with
  | error e =>
      rw [hc] at h
      exact absurd h (by simp [Except.map])
  | ok u =>
      rw [hc] at h
      refine ⟨?_, ?_, Finset.card_powerset _⟩
      · simpa [Except.map] using h.symm
      · intro ballot hb
        cases u
        exact (check_ballots_ok_iff ctx ds obj (ballotsList ctx)).mp hc ballot
          ((mem_ballotsList_iff ctx ballot).mpr ((mem_ballots_iff ctx ballot).mpr
            (Finset.mem_powerset.mp hb)))

/-- C1 witness: the all-zero certificate against the all-zero objective makes
the verifier succeed with value `0`, and the soundness conclusion holds for
it. -/
theorem claim_C1_witness :
    (0 : ℚ) = ds0.alpha - (k8ctx.T.card : ℚ) / (k8ctx.k : ℚ) * ds0.gamma
    ∧ (∀ ballot ∈ (groundSet k8ctx).powerset,
        zeroObj ballot ≤ constraint_lhs k8ctx ds0 ballot)
    ∧ (groundSet k8ctx).powerset.card = 2 ^ (groundSet k8ctx).card :=
  claim_C1_verifier_soundness k8ctx ds0 zeroObj 0 (verify_ds0 k8ctx)

/-- C3 (as stated) is false: the verifier's failure report on a bound
violation carries only the two sides `lhs` and `rhs` of the inequality
(`print(f"lhs = {lhs}, rhs = {objective[ballot]}")` followed by a bare
`assert`), so no function can recover the offending ballot from the failure:
the certificates `ds0` with objectives `indicator(∅)` and `indicator({0})`
have different unique offending ballots yet produce identical failures. -/
theorem claim_C3_counterexample :
    ¬ ∃ recover : VerifyFailure → Finset ℕ,
        ∀ (ds : DualSolution) (obj : Finset ℕ → ℚ) (b : Finset ℕ),
          violating_ballots k8ctx ds obj = {b} →
          ∀ e, verify_dual_solution k8ctx ds obj = Except.error e → recover e = b := by
  rintro ⟨recover, hrec⟩
  have h0 : (∅ : Finset ℕ) ∈ ballots k8ctx :=
    (mem_ballots_iff _ _).mpr (Finset.empty_subset _)
  have h1 : ({0} : Finset ℕ) ∈ ballots k8ctx := (mem_ballots_iff _ _).mpr (by decide)
  have hA := hrec ds0 (indicatorObj ∅) ∅ (violating_ballots_ds0_indicator k8ctx ∅ h0)
    (VerifyFailure.boundAssert 0 1) (verify_ds0_indicator_error k8ctx ∅ h0)
  have hB := hrec ds0 (indicatorObj {0}) {0}
    (violating_ballots_ds0_indicator k8ctx {0} h1)
    (VerifyFailure.boundAssert 0 1) (verify_ds0_indicator_error k8ctx {0} h1)
  rw [hA] at hB
  exact Finset.singleton_ne_empty 0 hB.symm

/-- C3 (amended): whenever the sign checks pass and some ballot's dual
constraint is violated, the verifier raises a hard failure and reports the
computed `lhs` and the expected bound (both sides of a genuinely violated
inequality) — but not the offending ballot itself. -/
theorem claim_C3_amended (ctx : LPContext) (ds : DualSolution) (obj : Finset ℕ → ℚ)
    (hbeta : ∀ s ∈ swaps ctx, 0 ≤ ds.beta s) (hgamma : 0 ≤ ds.gamma)
    (hviol : ∃ b ∈ ballots ctx, constraint_lhs ctx ds b < obj b) :
    ∃ l r : ℚ,
      verify_dual_solution ctx ds obj = Except.error (VerifyFailure.boundAssert l r)
      ∧ ∃ b ∈ ballots ctx, constraint_lhs ctx ds b = l ∧ obj b = r ∧ l < r := by
  obtain ⟨b0, hb0, hv0⟩ := hviol
  obtain ⟨b, hbmem, hviolb, hres⟩ := check_ballots_error_of_exists ctx ds obj
    (ballotsList ctx) ⟨b0, (mem_ballotsList_iff ctx b0).mpr hb0, hv0⟩
  refine ⟨constraint_lhs ctx ds b, obj b, ?_,
    b, (mem_ballotsList_iff ctx b).mp hbmem, rfl, rfl, hviolb⟩
  rw [verify_dual_solution, if_neg (not_not_intro hbeta), if_neg (not_not_intro hgamma),
    hres]
  rfl

/-- C3 witness: a concrete violated certificate (all-zero duals against the
indicator objective of the empty ballot) on which the amended claim's
hypotheses hold. -/
theorem claim_C3_witness :
    ∃ l r : ℚ,
      verify_dual_solution k8ctx ds0 (indicatorObj ∅)
        = Except.error (VerifyFailure.boundAssert l r)
      ∧ ∃ b ∈ ballots k8ctx,
          constraint_lhs k8ctx ds0 b = l ∧ indicatorObj ∅ b = r ∧ l < r :=
  claim_C3_amended k8ctx ds0 (indicatorObj ∅) (fun s _ => le_refl 0) (le_refl 0)
    ⟨∅, (mem_ballots_iff _ _).mpr (Finset.empty_subset _), by
      rw [constraint_lhs_ds0]; simp [indicatorObj]⟩

/-- C4: a negative `beta_{x,y}` or a negative `gamma` makes the verifier fail
hard on a sign assertion, with a result independent of the objective (the
per-ballot phase is never reached); when all the signs are right, the
verifier proceeds to exactly the per-ballot phase. -/
theorem claim_C4_sign_checks (ctx : LPContext) (ds : DualSolution) :
    (((∃ s ∈ swaps ctx, ds.beta s < 0) ∨ ds.gamma < 0) →
      ∀ obj obj' : Finset ℕ → ℚ,
        verify_dual_solution ctx ds obj = verify_dual_solution ctx ds obj'
        ∧ (verify_dual_solution ctx ds obj = Except.error VerifyFailure.betaSignAssert
          ∨ verify_dual_solution ctx ds obj = Except.error VerifyFailure.gammaSignAssert))
    ∧ ((∀ s ∈ swaps ctx, 0 ≤ ds.beta s) → 0 ≤ ds.gamma →
      ∀ obj : Finset ℕ → ℚ,
        verify_dual_solution ctx ds obj
          = (check_ballots ctx ds obj (ballotsList ctx)).map
              (fun _ => ds.alpha - (ctx.T.card : ℚ) / (ctx.k : ℚ) * ds.gamma)) := by
  constructor
  · intro h obj obj'
    by_cases hb : ∀ s ∈ swaps ctx, 0 ≤ ds.beta s
    · have hg : ¬ (0 ≤ ds.gamma) := by
        rcases h with ⟨s, hs, hneg⟩ | hg
        · exact absurd (hb s hs) (not_le.mpr hneg)
        · exact not_le.mpr hg
      have e1 : verify_dual_solution ctx ds obj
          = Except.error VerifyFailure.gammaSignAssert := by
        rw [verify_dual_solution, if_neg (not_not_intro hb), if_pos hg]
      have e2 : verify_dual_solution ctx ds obj'
          = Except.error VerifyFailure.gammaSignAssert := by
        rw [verify_dual_solution, if_neg (not_not_intro hb), if_pos hg]
      exact ⟨e1.trans e2.symm, Or.inr e1⟩
    · have e1 : verify_dual_solution ctx ds obj
          = Except.error VerifyFailure.betaSignAssert := by
        rw [verify_dual_solution, if_pos hb]
      have e2 : verify_dual_solution ctx ds obj'
          = Except.error VerifyFailure.betaSignAssert := by
        rw [verify_dual_solution, if_pos hb]
      exact ⟨e1.trans e2.symm, Or.inl e1⟩
  · intro h1 h2 obj
    rw [verify_dual_solution, if_neg (not_not_intro h1), if_neg (not_not_intro h2)]

/-!
## The LP instance builder (`make_model` of the primal notebook)

`make_model` feeds Gurobi one normalization constraint
(`quicksum(freq[ballot] for ballot in ballots) == 1`, named `"alpha"`), one
swap constraint `score[W_xy[(x,y)]] <= opt_score` per `(x, y)` in `swaps`
(named `"beta_{x}_{y}"`), and one deviation constraint
`-quicksum(freq[ballot] for ballot in ballots_preferring_T) <= -len(T)/k`
(named `"gamma"`; the comment in the source says it is negated to get the
right sign of the dual variable), where
`score[committee] = quicksum(freq[ballot] * harmonic_number(utility(ballot,
committee)) for ballot in ballots)`.  We embed the model symbolically as the
per-ballot coefficient functions of those three constraint families.
-/

/-- The coefficient of `freq[ballot]` in `score[committee]`:
`harmonic_number(utility(ballot, committee))`, with the builder's
`harmonic_number` imported from `utility_functions.py`. -/
def builder_score_coeff (committee ballot : Finset ℕ) : ℚ :=
  harmonic_number_uf (utility ballot committee)

/-- `ballots_preferring_T = set(ballot for ballot in ballots if
utility(ballot, T) > utility(ballot, pav_committee))`. -/
def ballots_preferring_T (ctx : LPContext) : Finset (Finset ℕ) :=
  (ballots ctx).filter (fun ballot => utility ballot ctx.T > utility ballot ctx.W)

/-- The symbolic LP instance `make_model` hands to the solver: one
normalization constraint (`∑ norm_coeff · freq = norm_rhs`), one swap
constraint per element of `swap_index` (written as the source writes it,
`∑ swap_lhs_coeff · freq ≤ ∑ swap_rhs_coeff · freq`), and one deviation
constraint (`∑ dev_coeff · freq ≤ dev_rhs`). -/
structure LinearProgram where
  norm_coeff : Finset ℕ → ℚ
  norm_rhs : ℚ
  swap_index : Finset (ℕ × ℕ)
  swap_lhs_coeff : ℕ × ℕ → Finset ℕ → ℚ
  swap_rhs_coeff : ℕ × ℕ → Finset ℕ → ℚ
  dev_coeff : Finset ℕ → ℚ
  dev_rhs : ℚ

/-- The builder `make_model` (minus the Gurobi plumbing: variables are the
`freq[ballot]`, and each constraint is recorded by its per-ballot
coefficients). -/
def make_model (ctx : LPContext) : LinearProgram :=
  { norm_coeff := fun _ => 1
    norm_rhs := 1
    swap_index := swaps ctx
    swap_lhs_coeff := fun s ballot => builder_score_coeff (W_xy ctx.W s.1 s.2) ballot
    swap_rhs_coeff := fun _ ballot => builder_score_coeff ctx.W ballot
    dev_coeff := fun ballot => if ballot ∈ ballots_preferring_T ctx then -1 else 0
    dev_rhs := -((ctx.T.card : ℚ) / (ctx.k : ℚ)) }

lemma mem_ballots_preferring_T (ctx : LPContext) (b : Finset ℕ) :
    b ∈ ballots_preferring_T ctx
      ↔ b ∈ ballots ctx ∧ utility b ctx.T > utility b ctx.W := by
  rw [ballots_preferring_T]
  exact Finset.mem_filter

/-- Satisfaction of the builder's normalization constraint by a frequency
assignment. -/
def normHolds (ctx : LPContext) (M : LinearProgram) (freq : Finset ℕ → ℚ) : Prop :=
  ∑ b ∈ ballots ctx, M.norm_coeff b * freq b = M.norm_rhs

/-- Satisfaction of the builder's deviation constraint by a frequency
assignment. -/
def devHolds (ctx : LPContext) (M : LinearProgram) (freq : Finset ℕ → ℚ) : Prop :=
  ∑ b ∈ ballots ctx, M.dev_coeff b * freq b ≤ M.dev_rhs

/-- C9: the empty ballot has utility `0` against every committee, its
coefficient in the builder's deviation constraint is `0` (it never strictly
prefers `T`), and in the verifier's per-ballot check the `gamma` term is never
subtracted for it. -/
theorem claim_C9_empty_ballot (ctx : LPContext) (committee : Finset ℕ)
    (ds : DualSolution) :
    utility ∅ committee = 0
    ∧ (make_model ctx).dev_coeff ∅ = 0
    ∧ verifier_dev_indicator ctx ∅ = 0
    ∧ constraint_lhs ctx ds ∅
        = ds.alpha + ∑ s ∈ swaps ctx, ds.beta s * verifier_swap_coeff ctx ∅ s.1 s.2 := by
  have hu : ∀ c : Finset ℕ, utility ∅ c = 0 := by
    intro c
    simp [utility]
  have hnot : ¬ utility ∅ ctx.T > utility ∅ ctx.W := by
    rw [hu, hu]
    exact lt_irrefl 0
  refine ⟨hu committee, ?_, ?_, ?_⟩
  · have : ∅ ∉ ballots_preferring_T ctx := fun hmem =>
      hnot (Finset.mem_filter.mp hmem).2
    simp [make_model, this]
  · rw [verifier_dev_indicator, if_neg hnot]
  · rw [constraint_lhs, if_neg hnot, sub_zero]

/-- C2: the swap-constraint coefficient the builder gives the solver (the
difference of the two sides of `score[W_xy[(x,y)]] <= opt_score` at one
ballot) coincides with the swap coefficient the verifier re-derives,
`H(utility(ballot, swapped(W, x, y))) - H(utility(ballot, W))`, and the two
deviation indicators (builder membership in `ballots_preferring_T` versus the
verifier's `utility(ballot, T) > utility(ballot, W)` test) agree on every
ballot of the universe. -/
theorem claim_C2_builder_verifier_agree (ctx : LPContext) (ballot : Finset ℕ)
    (x y : ℕ) (hb : ballot ∈ ballots ctx) :
    (make_model ctx).swap_lhs_coeff (x, y) ballot
        - (make_model ctx).swap_rhs_coeff (x, y) ballot
      = verifier_swap_coeff ctx ballot x y
    ∧ -((make_model ctx).dev_coeff ballot) = verifier_dev_indicator ctx ballot := by
  constructor
  · rw [make_model]
    show builder_score_coeff (W_xy ctx.W x y) ballot - builder_score_coeff ctx.W ballot
      = verifier_swap_coeff ctx ballot x y
    rw [builder_score_coeff, builder_score_coeff, W_xy_eq_swapped,
      harmonic_number_uf_eq, harmonic_number_uf_eq, verifier_swap_coeff]
  · rw [make_model]
    show -(if ballot ∈ ballots_preferring_T ctx then (-1 : ℚ) else 0)
      = verifier_dev_indicator ctx ballot
    by_cases hpref : utility ballot ctx.T > utility ballot ctx.W
    · rw [if_pos ((mem_ballots_preferring_T ctx ballot).mpr ⟨hb, hpref⟩),
        verifier_dev_indicator, if_pos hpref]
      norm_num
    · rw [if_neg (fun hmem => hpref ((mem_ballots_preferring_T ctx ballot).mp hmem).2),
        verifier_dev_indicator, if_neg hpref]
      norm_num

/-- C2 witness: the coefficient agreement at the concrete ballot `{0, 1, 8}`
and swap `(2, 9)` of the notebooks' context. -/
theorem claim_C2_witness :
    (make_model k8ctx).swap_lhs_coeff (2, 9) {0, 1, 8}
        - (make_model k8ctx).swap_rhs_coeff (2, 9) {0, 1, 8}
      = verifier_swap_coeff k8ctx {0, 1, 8} 2 9
    ∧ -((make_model k8ctx).dev_coeff {0, 1, 8}) = verifier_dev_indicator k8ctx {0, 1, 8} :=
  claim_C2_builder_verifier_agree k8ctx {0, 1, 8} 2 9
    ((mem_ballots_iff _ _).mpr (by decide))

/-- C5: the builder produces exactly one normalization constraint with all
coefficients `1` forcing the frequencies to sum to `1`; `k * (|A| - k)` swap
constraints, one per ordered pair `x ∈ W`, `y ∈ A \ W`, whose per-ballot
coefficient is `H(utility(ballot, swapped)) - H(utility(ballot, W))`; and one
deviation constraint carrying indicator coefficients (`1` iff the ballot
strictly prefers `T`) that requires the total frequency of such ballots to be
at least `|T|/k` (the source writes that constraint negated; its satisfaction
predicate is the stated lower bound). -/
theorem claim_C5_model_structure (ctx : LPContext)
    (hW : ctx.W ⊆ groundSet ctx) (hk : ctx.W.card = ctx.k) :
    (∀ b, (make_model ctx).norm_coeff b = 1)
    ∧ (∀ freq : Finset ℕ → ℚ,
        normHolds ctx (make_model ctx) freq ↔ ∑ b ∈ ballots ctx, freq b = 1)
    ∧ (make_model ctx).swap_index.card = ctx.k * ((groundSet ctx).card - ctx.k)
    ∧ (∀ x y, (x, y) ∈ (make_model ctx).swap_index
        ↔ x ∈ ctx.W ∧ y ∈ groundSet ctx ∧ y ∉ ctx.W)
    ∧ (∀ x y b, (make_model ctx).swap_lhs_coeff (x, y) b
          - (make_model ctx).swap_rhs_coeff (x, y) b
        = harmonic_number_uf (utility b (swapped ctx.W x y))
          - harmonic_number_uf (utility b ctx.W))
    ∧ (∀ b ∈ ballots ctx,
        (make_model ctx).dev_coeff b
          = -(if utility b ctx.T > utility b ctx.W then (1 : ℚ) else 0))
    ∧ (∀ freq : Finset ℕ → ℚ,
        devHolds ctx (make_model ctx) freq ↔
          (ctx.T.card : ℚ) / (ctx.k : ℚ)
            ≤ ∑ b ∈ ballots ctx,
                (if utility b ctx.T > utility b ctx.W then (1 : ℚ) else 0) * freq b) := by
  have hdev : ∀ b ∈ ballots ctx,
      (make_model ctx).dev_coeff b
        = -(if utility b ctx.T > utility b ctx.W then (1 : ℚ) else 0) := by
    intro b hb
    show (if b ∈ ballots_preferring_T ctx then (-1 : ℚ) else 0) = _
    by_cases hpref : utility b ctx.T > utility b ctx.W
    · rw [if_pos ((mem_ballots_preferring_T ctx b).mpr ⟨hb, hpref⟩), if_pos hpref]
    · rw [if_neg (fun hmem => hpref ((mem_ballots_preferring_T ctx b).mp hmem).2),
        if_neg hpref, neg_zero]
  refine ⟨fun _ => rfl, ?_, ?_, ?_, ?_, hdev, ?_⟩
  · intro freq
    unfold normHolds make_model
    simp [one_mul]
  · rw [make_model]
    show (swaps ctx).card = ctx.k * ((groundSet ctx).card - ctx.k)
    rw [swaps, Finset.card_product, Finset.card_sdiff hW, hk]
  · intro x y
    rw [make_model]
    show (x, y) ∈ swaps ctx ↔ _
    rw [swaps, Finset.mem_product, Finset.mem_sdiff]
  · intro x y b
    rw [make_model]
    show builder_score_coeff (W_xy ctx.W x y) b - builder_score_coeff ctx.W b = _
    rw [builder_score_coeff, builder_score_coeff, W_xy_eq_swapped]
  · intro freq
    unfold devHolds
    have hsum : ∑ b ∈ ballots ctx, (make_model ctx).dev_coeff b * freq b
        = -∑ b ∈ ballots ctx,
            (if utility b ctx.T > utility b ctx.W then (1 : ℚ) else 0) * freq b := by
      rw [← Finset.sum_neg_distrib]
      refine Finset.sum_congr rfl (fun b hb => ?_)
      rw [hdev b hb]
      ring
    rw [hsum]
    show -_ ≤ -((ctx.T.card : ℚ) / (ctx.k : ℚ)) ↔ _
    rw [neg_le_neg_iff]

/-- C5 witness: the structural facts at the notebooks' concrete context; in
particular there are `8 * (10 - 8) = 16` swap constraints. -/
theorem claim_C5_witness :
    (make_model k8ctx).swap_index.card = k8ctx.k * ((groundSet k8ctx).card - k8ctx.k)
    ∧ ∀ b, (make_model k8ctx).norm_coeff b = 1 :=
  ⟨(claim_C5_model_structure k8ctx (by decide) (by decide)).2.2.1,
    (claim_C5_model_structure k8ctx (by decide) (by decide)).1⟩

/-!
## The canonicalization ("wlog") engine

`generate_wlog_partition` and `is_wlog` live in the repository file
`utility_functions.py`, which is not among the staged sources (only their
callers are); they are modelled from the design spec, section 4.2.
-/

/-- Modelled from the spec: the missing `utility_functions.py` computes, "for
each element, its signature = the subset of `distinguished_sets` indices
containing it".  We record the signature as the membership mask over the list
of distinguished sets. -/
def signature (dsets : List (Finset ℕ)) (e : ℕ) : List Bool :=
  dsets.map (fun d => decide (e ∈ d))

/-- The block of an element: all ground-set elements with the same
signature. -/
def blockOf (ground : Finset ℕ) (dsets : List (Finset ℕ)) (e : ℕ) : Finset ℕ :=
  ground.filter (fun x => signature dsets x = signature dsets e)

/-- Modelled from the spec: `generate_wlog_partition(ground_set,
distinguished_sets)` groups elements with identical signatures into blocks;
the partition is the set of those blocks. -/
def generate_wlog_partition (ground : Finset ℕ) (dsets : List (Finset ℕ)) :
    Finset (Finset ℕ) :=
  ground.image (fun e => blockOf ground dsets e)

/-- The `q` lowest-indexed elements of a block `B` (all of `B` when
`q ≥ |B|`). -/
def lowestK (B : Finset ℕ) (q : ℕ) : Finset ℕ :=
  ((B.sort (· ≤ ·)).take q).toFinset

/-- Modelled from the spec: `is_wlog(candidate_set, partition)` decides
whether the candidate set is canonical: "a candidate set is canonical iff,
restricted to every block, it consists exactly of the block's lowest-indexed
elements, in quantity equal to `|candidate_set ∩ block|`". -/
def is_wlog (S : Finset ℕ) (P : Finset (Finset ℕ)) : Bool :=
  decide (∀ B ∈ P, S ∩ B = lowestK B ((S ∩ B).card))

/-- A relabeling permutation that fixes every block of the partition setwise
(and everything outside the ground set pointwise): the "independent
within-block permutations" of the spec. -/
def IsBlockPerm (ground : Finset ℕ) (dsets : List (Finset ℕ)) (π : Equiv.Perm ℕ) : Prop :=
  (∀ x ∈ ground, π x ∈ ground ∧ signature dsets (π x) = signature dsets x)
  ∧ (∀ x, x ∉ ground → π x = x)

/-- `S'` lies in the orbit of `S` under independent within-block
permutations. -/
def InOrbit (ground : Finset ℕ) (dsets : List (Finset ℕ)) (S S' : Finset ℕ) : Prop :=
  ∃ π : Equiv.Perm ℕ, IsBlockPerm ground dsets π ∧ S' = S.image (fun x => π x)

/-- Two candidate sets meet every block in the same number of elements. -/
def CountsEq (ground : Finset ℕ) (dsets : List (Finset ℕ)) (S S' : Finset ℕ) : Prop :=
  ∀ e ∈ ground, (S ∩ blockOf ground dsets e).card = (S' ∩ blockOf ground dsets e).card

/-- The canonical representative determined by the per-block counts of `S`:
in every block, take the lowest-indexed elements in quantity
`|S ∩ block|`. -/
def canonical_form (ground : Finset ℕ) (dsets : List (Finset ℕ)) (S : Finset ℕ) :
    Finset ℕ :=
  (generate_wlog_partition ground dsets).biUnion (fun B => lowestK B ((S ∩ B).card))

lemma mem_blockOf (ground : Finset ℕ) (dsets : List (Finset ℕ)) (e x : ℕ) :
    x ∈ blockOf ground dsets e
      ↔ x ∈ ground ∧ signature dsets x = signature dsets e := by
  rw [blockOf]
  exact Finset.mem_filter

lemma self_mem_blockOf (ground : Finset ℕ) (dsets : List (Finset ℕ)) {e : ℕ}
    (he : e ∈ ground) : e ∈ blockOf ground dsets e :=
  (mem_blockOf _ _ _ _).mpr ⟨he, rfl⟩

lemma blockOf_subset (ground : Finset ℕ) (dsets : List (Finset ℕ)) (e : ℕ) :
    blockOf ground dsets e ⊆ ground :=
  Finset.filter_subset _ _

lemma blockOf_eq_of_sig (ground : Finset ℕ) (dsets : List (Finset ℕ)) {e e' : ℕ}
    (h : signature dsets e = signature dsets e') :
    blockOf ground dsets e = blockOf ground dsets e' := by
  ext x
  rw [mem_blockOf, mem_blockOf, h]

lemma mem_partition_iff (ground : Finset ℕ) (dsets : List (Finset ℕ)) (B : Finset ℕ) :
    B ∈ generate_wlog_partition ground dsets
      ↔ ∃ e ∈ ground, blockOf ground dsets e = B := by
  rw [generate_wlog_partition]
  exact Finset.mem_image

lemma blockOf_disjoint (ground : Finset ℕ) (dsets : List (Finset ℕ)) {e e' : ℕ}
    (h : blockOf ground dsets e ≠ blockOf ground dsets e') :
    Disjoint (blockOf ground dsets e) (blockOf ground dsets e') := by
  rw [Finset.disjoint_left]
  intro z hz hz'
  exact h (blockOf_eq_of_sig ground dsets
    (((mem_blockOf _ _ _ _).mp hz).2.symm.trans ((mem_blockOf _ _ _ _).mp hz').2))

lemma inter_blockOf_eq_filter (ground : Finset ℕ) (dsets : List (Finset ℕ))
    {S : Finset ℕ} (hS : S ⊆ ground) (e : ℕ) :
    S ∩ blockOf ground dsets e
      = S.filter (fun x => signature dsets x = signature dsets e) := by
  ext x
  simp only [Finset.mem_inter, mem_blockOf, Finset.mem_filter]
  exact ⟨fun h => ⟨h.1, h.2.2⟩, fun h => ⟨h.1, hS h.1, h.2⟩⟩

lemma lowestK_subset (B : Finset ℕ) (q : ℕ) : lowestK B q ⊆ B := by
  intro z hz
  rw [lowestK, List.mem_toFinset] at hz
  exact (Finset.mem_sort _).mp (List.take_subset _ _ hz)

lemma card_lowestK (B : Finset ℕ) (q : ℕ) : (lowestK B q).card = min q B.card := by
  rw [lowestK,
    List.toFinset_card_of_nodup ((List.take_sublist q _).nodup (Finset.sort_nodup _ B)),
    List.length_take, Finset.length_sort]

lemma card_inter_le (S B : Finset ℕ) : (S ∩ B).card ≤ B.card :=
  Finset.card_le_card Finset.inter_subset_right

lemma canonical_form_inter (ground : Finset ℕ) (dsets : List (Finset ℕ)) (S : Finset ℕ)
    {B₀ : Finset ℕ} (hB₀ : B₀ ∈ generate_wlog_partition ground dsets) :
    canonical_form ground dsets S ∩ B₀ = lowestK B₀ ((S ∩ B₀).card) := by
  ext z
  simp only [canonical_form, Finset.mem_inter, Finset.mem_biUnion]
  constructor
  · rintro ⟨⟨B, hB, hzB⟩, hzB₀⟩
    have hzB' : z ∈ B := lowestK_subset _ _ hzB
    obtain ⟨e, he, rfl⟩ := (mem_partition_iff _ _ _).mp hB
    obtain ⟨e₀, he₀, rfl⟩ := (mem_partition_iff _ _ _).mp hB₀
    have heq : blockOf ground dsets e = blockOf ground dsets e₀ := by
      by_contra hne
      exact (Finset.disjoint_left.mp (blockOf_disjoint ground dsets hne)) hzB' hzB₀
    rw [heq] at hzB
    exact hzB
  · intro hz
    exact ⟨⟨B₀, hB₀, hz⟩, lowestK_subset _ _ hz⟩

lemma canonical_form_counts (ground : Finset ℕ) (dsets : List (Finset ℕ)) (S : Finset ℕ) :
    CountsEq ground dsets S (canonical_form ground dsets S) := by
  intro e he
  have hB : blockOf ground dsets e ∈ generate_wlog_partition ground dsets :=
    (mem_partition_iff _ _ _).mpr ⟨e, he, rfl⟩
  rw [canonical_form_inter ground dsets S hB, card_lowestK,
    min_eq_left (card_inter_le S _)]

lemma canonical_form_subset (ground : Finset ℕ) (dsets : List (Finset ℕ)) (S : Finset ℕ) :
    canonical_form ground dsets S ⊆ ground := by
  intro z hz
  obtain ⟨B, hB, hzB⟩ := Finset.mem_biUnion.mp hz
  obtain ⟨e, he, rfl⟩ := (mem_partition_iff _ _ _).mp hB
  exact blockOf_subset ground dsets e (lowestK_subset _ _ hzB)

lemma is_wlog_iff (S : Finset ℕ) (P : Finset (Finset ℕ)) :
    is_wlog S P = true ↔ ∀ B ∈ P, S ∩ B = lowestK B ((S ∩ B).card) := by
  rw [is_wlog, decide_eq_true_eq]

lemma is_wlog_canonical_form (ground : Finset ℕ) (dsets : List (Finset ℕ)) (S : Finset ℕ) :
    is_wlog (canonical_form ground dsets S) (generate_wlog_partition ground dsets)
      = true := by
  rw [is_wlog_iff]
  intro B hB
  have h1 : canonical_form ground dsets S ∩ B = lowestK B ((S ∩ B).card) :=
    canonical_form_inter ground dsets S hB
  have h2 : (canonical_form ground dsets S ∩ B).card = (S ∩ B).card := by
    rw [h1, card_lowestK, min_eq_left (card_inter_le S B)]
  rw [h2, h1]

lemma blockPerm_image_inter (ground : Finset ℕ) (dsets : List (Finset ℕ))
    {π : Equiv.Perm ℕ} (hπ : IsBlockPerm ground dsets π)
    {S : Finset ℕ} (hS : S ⊆ ground) (e : ℕ) :
    S.image (fun x => π x) ∩ blockOf ground dsets e
      = (S ∩ blockOf ground dsets e).image (fun x => π x) := by
  ext z
  simp only [Finset.mem_inter, Finset.mem_image, mem_blockOf]
  constructor
  · rintro ⟨⟨a, ha, rfl⟩, _, hsig⟩
    exact ⟨a, ⟨ha, hS ha, ((hπ.1 a (hS ha)).2).symm.trans hsig⟩, rfl⟩
  · rintro ⟨a, ⟨ha, hag, hsig⟩, rfl⟩
    exact ⟨⟨a, ha, rfl⟩, (hπ.1 a hag).1, ((hπ.1 a hag).2).trans hsig⟩

lemma inOrbit_countsEq (ground : Finset ℕ) (dsets : List (Finset ℕ))
    {S S' : Finset ℕ} (hS : S ⊆ ground) (h : InOrbit ground dsets S S') :
    S' ⊆ ground ∧ CountsEq ground dsets S S' := by
  obtain ⟨π, hπ, rfl⟩ := h
  constructor
  · intro z hz
    obtain ⟨a, ha, rfl⟩ := Finset.mem_image.mp hz
    exact (hπ.1 a (hS ha)).1
  · intro e he
    rw [blockPerm_image_inter ground dsets hπ hS e,
      Finset.card_image_of_injective _ π.injective]

lemma isBlockPerm_refl (ground : Finset ℕ) (dsets : List (Finset ℕ)) :
    IsBlockPerm ground dsets (Equiv.refl ℕ) :=
  ⟨fun _ hx => ⟨hx, rfl⟩, fun _ _ => rfl⟩

lemma isBlockPerm_trans (ground : Finset ℕ) (dsets : List (Finset ℕ))
    {π τ : Equiv.Perm ℕ} (hπ : IsBlockPerm ground dsets π)
    (hτ : IsBlockPerm ground dsets τ) :
    IsBlockPerm ground dsets (π.trans τ) := by
  constructor
  · intro x hx
    obtain ⟨h1, h2⟩ := hπ.1 x hx
    obtain ⟨h3, h4⟩ := hτ.1 (π x) h1
    exact ⟨h3, h4.trans h2⟩
  · intro x hx
    show τ (π x) = x
    rw [hπ.2 x hx, hτ.2 x hx]

lemma isBlockPerm_swap (ground : Finset ℕ) (dsets : List (Finset ℕ)) {x y : ℕ}
    (hx : x ∈ ground) (hy : y ∈ ground)
    (hsig : signature dsets x = signature dsets y) :
    IsBlockPerm ground dsets (Equiv.swap x y) := by
  constructor
  · intro z hz
    rcases eq_or_ne z x with rfl | hzx
    · rw [Equiv.swap_apply_left]
      exact ⟨hy, hsig.symm⟩
    · rcases eq_or_ne z y with rfl | hzy
      · rw [Equiv.swap_apply_right]
        exact ⟨hx, hsig⟩
      · rw [Equiv.swap_apply_of_ne_of_ne hzx hzy]
        exact ⟨hz, rfl⟩
  · intro z hz
    exact Equiv.swap_apply_of_ne_of_ne (fun h => hz (h ▸ hx)) (fun h => hz (h ▸ hy))

lemma image_swap_eq (S : Finset ℕ) {x y : ℕ} (hx : x ∈ S) (hy : y ∉ S) :
    S.image (fun z => Equiv.swap x y z) = insert y (S.erase x) := by
  ext z
  simp only [Finset.mem_image, Finset.mem_insert, Finset.mem_erase]
  constructor
  · rintro ⟨a, ha, rfl⟩
    rcases eq_or_ne a x with rfl | hax
    · left
      rw [Equiv.swap_apply_left]
    · rcases eq_or_ne a y with rfl | hay
      · exact absurd ha hy
      · right
        rw [Equiv.swap_apply_of_ne_of_ne hax hay]
        exact ⟨hax, ha⟩
  · rintro (rfl | ⟨hzx, hz⟩)
    · exact ⟨x, hx, by rw [Equiv.swap_apply_left]⟩
    · have hzy : z ≠ y := fun h => hy (h ▸ hz)
      exact ⟨z, hz, Equiv.swap_apply_of_ne_of_ne hzx hzy⟩

lemma countsEq_card (ground : Finset ℕ) (dsets : List (Finset ℕ)) {S S' : Finset ℕ}
    (hS : S ⊆ ground) (hS' : S' ⊆ ground) (h : CountsEq ground dsets S S') :
    S.card = S'.card := by
  have hfib : ∀ X : Finset ℕ, X ⊆ ground → X.card
      = ∑ σ ∈ ground.image (signature dsets),
          (X.filter (fun x => signature dsets x = σ)).card := by
    intro X hX
    exact Finset.card_eq_sum_card_fiberwise (fun x hx => Finset.mem_image_of_mem _ (hX hx))
  rw [hfib S hS, hfib S' hS']
  refine Finset.sum_congr rfl (fun σ hσ => ?_)
  obtain ⟨e, he, rfl⟩ := Finset.mem_image.mp hσ
  have h1 := h e he
  rw [inter_blockOf_eq_filter ground dsets hS e,
    inter_blockOf_eq_filter ground dsets hS' e] at h1
  exact h1

lemma countsEq_inOrbit (ground : Finset ℕ) (dsets : List (Finset ℕ)) :
    ∀ (n : ℕ) (S S' : Finset ℕ), (S \ S').card = n → S ⊆ ground → S' ⊆ ground →
      CountsEq ground dsets S S' → InOrbit ground dsets S S' := by
  intro n
  induction n with
  | zero =>
      intro S S' hcard hS hS' hcnt
      have hsub : S ⊆ S' := by
        rw [← Finset.sdiff_eq_empty_iff_subset]
        exact Finset.card_eq_zero.mp hcard
      have heq : S = S' := Finset.eq_of_subset_of_card_le hsub
        (le_of_eq (countsEq_card ground dsets hS hS' hcnt).symm)
      subst heq
      exact ⟨Equiv.refl ℕ, isBlockPerm_refl ground dsets, by simp⟩
  | succ n ih =>
      intro S S' hcard hS hS' hcnt
      have hne : (S \ S').Nonempty := by
        rw [← Finset.card_pos, hcard]
        exact Nat.succ_pos n
      obtain ⟨x, hx⟩ := hne
      have hxS : x ∈ S := (Finset.mem_sdiff.mp hx).1
      have hxS' : x ∉ S' := (Finset.mem_sdiff.mp hx).2
      have hxg : x ∈ ground := hS hxS
      have hB := hcnt x hxg
      have hxSB : x ∈ S ∩ blockOf ground dsets x :=
        Finset.mem_inter.mpr ⟨hxS, self_mem_blockOf ground dsets hxg⟩
      have hexy : ∃ y ∈ S' ∩ blockOf ground dsets x, y ∉ S := by
        by_contra hno
        push_neg at hno
        have hsub : S' ∩ blockOf ground dsets x ⊆ S ∩ blockOf ground dsets x :=
          fun z hz => Finset.mem_inter.mpr ⟨hno z hz, (Finset.mem_inter.mp hz).2⟩
        have heq : S' ∩ blockOf ground dsets x = S ∩ blockOf ground dsets x :=
          Finset.eq_of_subset_of_card_le hsub (le_of_eq hB)
        rw [← heq] at hxSB
        exact hxS' (Finset.mem_inter.mp hxSB).1
      obtain ⟨y, hy, hyS⟩ := hexy
      have hyB : y ∈ blockOf ground dsets x := (Finset.mem_inter.mp hy).2
      have hyg : y ∈ ground := blockOf_subset ground dsets x hyB
      have hsigyx : signature dsets y = signature dsets x :=
        ((mem_blockOf _ _ _ _).mp hyB).2
      have hswap : IsBlockPerm ground dsets (Equiv.swap x y) :=
        isBlockPerm_swap ground dsets hxg hyg hsigyx.symm
      have hS₁ : S.image (fun z => Equiv.swap x y z) = insert y (S.erase x) :=
        image_swap_eq S hxS hyS
      have horb : InOrbit ground dsets S (S.image (fun z => Equiv.swap x y z)) :=
        ⟨Equiv.swap x y, hswap, rfl⟩
      have hS₁g : S.image (fun z => Equiv.swap x y z) ⊆ ground :=
        (inOrbit_countsEq ground dsets hS horb).1
      have hcnt1 : CountsEq ground dsets (S.image (fun z => Equiv.swap x y z)) S' := by
        intro e he
        rw [← (inOrbit_countsEq ground dsets hS horb).2 e he]
        exact hcnt e he
      have hcard1 : ((S.image (fun z => Equiv.swap x y z)) \ S').card = n := by
        rw [hS₁, Finset.insert_sdiff_of_mem _ ((Finset.mem_inter.mp hy).1),
          Finset.erase_sdiff_comm, Finset.card_erase_of_mem hx, hcard]
        rfl
      obtain ⟨π, hπ, hπeq⟩ := ih (S.image (fun z => Equiv.swap x y z)) S' hcard1 hS₁g hS' hcnt1
      refine ⟨(Equiv.swap x y).trans π, isBlockPerm_trans ground dsets hswap hπ, ?_⟩
      rw [hπeq, Finset.image_image]
      rfl

lemma canonical_unique (ground : Finset ℕ) (dsets : List (Finset ℕ)) {S S' : Finset ℕ}
    (hS' : S' ⊆ ground) (hcnt : CountsEq ground dsets S S')
    (hwlog : is_wlog S' (generate_wlog_partition ground dsets) = true) :
    S' = canonical_form ground dsets S := by
  have hw := (is_wlog_iff _ _).mp hwlog
  have hblock : ∀ e ∈ ground, S' ∩ blockOf ground dsets e
      = canonical_form ground dsets S ∩ blockOf ground dsets e := by
    intro e he
    have hBmem : blockOf ground dsets e ∈ generate_wlog_partition ground dsets :=
      (mem_partition_iff _ _ _).mpr ⟨e, he, rfl⟩
    rw [canonical_form_inter ground dsets S hBmem, hw _ hBmem, ← hcnt e he]
  ext z
  by_cases hzg : z ∈ ground
  · have h1 := hblock z hzg
    constructor
    · intro hz
      have hmem : z ∈ S' ∩ blockOf ground dsets z :=
        Finset.mem_inter.mpr ⟨hz, self_mem_blockOf ground dsets hzg⟩
      rw [h1] at hmem
      exact (Finset.mem_inter.mp hmem).1
    · intro hz
      have hmem : z ∈ canonical_form ground dsets S ∩ blockOf ground dsets z :=
        Finset.mem_inter.mpr ⟨hz, self_mem_blockOf ground dsets hzg⟩
      rw [← h1] at hmem
      exact (Finset.mem_inter.mp hmem).1
  · constructor
    · intro hz
      exact absurd (hS' hz) hzg
    · intro hz
      exact absurd (canonical_form_subset ground dsets S hz) hzg

/-- C6: the partition produced by `generate_wlog_partition` puts two elements
of the ground set in one block iff they have identical signatures; `is_wlog`
holds iff, within every block, the candidate set consists of the block's
lowest-indexed elements in quantity `|S ∩ block|`; and consequently every
subset of the ground set has exactly one member of its orbit — under
independent within-block permutations — that satisfies `is_wlog`. -/
theorem claim_C6_canonicalization (ground : Finset ℕ) (dsets : List (Finset ℕ))
    (S : Finset ℕ) (hS : S ⊆ ground) :
    (∀ e ∈ ground, ∀ e' ∈ ground,
      ((∃ B ∈ generate_wlog_partition ground dsets, e ∈ B ∧ e' ∈ B)
        ↔ signature dsets e = signature dsets e'))
    ∧ (is_wlog S (generate_wlog_partition ground dsets) = true
        ↔ ∀ B ∈ generate_wlog_partition ground dsets, S ∩ B = lowestK B ((S ∩ B).card))
    ∧ (∃! S' : Finset ℕ, InOrbit ground dsets S S'
        ∧ is_wlog S' (generate_wlog_partition ground dsets) = true) := by
  refine ⟨?_, is_wlog_iff S _, ?_⟩
  · intro e he e' he'
    constructor
    · rintro ⟨B, hB, heB, he'B⟩
      obtain ⟨a, ha, rfl⟩ := (mem_partition_iff _ _ _).mp hB
      exact ((mem_blockOf _ _ _ _).mp heB).2.trans ((mem_blockOf _ _ _ _).mp he'B).2.symm
    · intro hsig
      exact ⟨blockOf ground dsets e, (mem_partition_iff _ _ _).mpr ⟨e, he, rfl⟩,
        self_mem_blockOf ground dsets he, (mem_blockOf _ _ _ _).mpr ⟨he', hsig.symm⟩⟩
  · refine ⟨canonical_form ground dsets S,
      ⟨?_, is_wlog_canonical_form ground dsets S⟩, ?_⟩
    · exact countsEq_inOrbit ground dsets _ S _ rfl hS
        (canonical_form_subset ground dsets S) (canonical_form_counts ground dsets S)
    · rintro S' ⟨horb, hwlog⟩
      obtain ⟨hS'g, hcnt⟩ := inOrbit_countsEq ground dsets hS horb
      exact canonical_unique ground dsets hS'g hcnt hwlog

/-- C6 witness: the concrete instance with ground set `{0, 1, 2, 3}`, one
distinguished set `{0, 1}` (blocks `{0, 1}` and `{2, 3}`) and candidate set
`{1, 3}`. -/
theorem claim_C6_witness :
    ∃! S' : Finset ℕ, InOrbit (Finset.range 4) [{0, 1}] {1, 3} S'
      ∧ is_wlog S' (generate_wlog_partition (Finset.range 4) [{0, 1}]) = true :=
  (claim_C6_canonicalization (Finset.range 4) [{0, 1}] {1, 3} (by decide)).2.2

end PAVCore
